import Mathlib

/-!
# Verification of the cbf-rs CBF decoder and radial analysis

A shallow embedding of the cbf-rs repository (a decoder for the
crystallographic binary image format together with a radial diffraction
analysis), with theorems checking the natural-language specification
against the code.

Machine integers are modelled as mathematical integers with explicit
two's-complement wrap (`% 2^w`) where the Rust code performs fixed-width
arithmetic; Rust `Option`/`Result` become Lean `Option`/`Except`;
a Rust panic is modelled as `Option.none`.
-/

namespace Cbf

/-! ## Pixel/Image model: coordinate interpretations (`src/image/mod.rs`)

Rust `usize` is 64-bit here; `usize` subtraction and the products formed
in `index` wrap modulo `2^64` (release-profile semantics of overflow). -/

/-- Number of values of `usize`, i.e. `2 ^ 64`. -/
def usizeMod : ℕ := 2 ^ 64

/-- Wrapping `usize` subtraction: `a.wrapping_sub b` for `a, b < 2^64`. -/
def usizeSub (a b : ℕ) : ℕ := (a + usizeMod - b % usizeMod) % usizeMod

/-- Embedding of `<usize as ImageCoordinate>::index` from `src/image/mod.rs`:
`if width * height - 1 < *self { None } else { Some(*self) }`,
with the `usize` product and subtraction wrapping modulo `2^64`. -/
def indexUsize (i width height : ℕ) : Option ℕ :=
  if usizeSub (width * height % usizeMod) 1 < i then none else some i

/-- Embedding of `<(isize, isize) as ImageCoordinate>::index` from
`src/image/mod.rs`: re-center by adding `(width/2, height/2)`, reject when
`x < 0 || y < 0 || width < x as usize || height < y as usize`, then defer
to the `usize` interpretation of `y as usize * width + x as usize`. -/
def indexCentered (x y : ℤ) (width height : ℕ) : Option ℕ :=
  let x' : ℤ := x + (width / 2 : ℕ)
  let y' : ℤ := y + (height / 2 : ℕ)
  if x' < 0 ∨ y' < 0 ∨ (width : ℤ) < x' ∨ (height : ℤ) < y' then none
  else indexUsize ((y'.toNat * width + x'.toNat) % usizeMod) width height

/-- An image: width, height and a flat row-major pixel buffer.  The claims
about coordinates and analysis use integer pixels, modelled as `ℤ`. -/
structure Image where
  width : ℕ
  height : ℕ
  pixels : List ℤ

/-- Embedding of `Image::get_pixel` for the `usize` coordinate.  The Rust
code indexes the boxed slice with the returned index, which panics when the
index is out of bounds of the buffer; the panic is modelled as `none`. -/
def Image.getPixelUsize (img : Image) (i : ℕ) : Option ℤ :=
  (indexUsize i img.width img.height).bind fun idx => img.pixels.get? idx

/-- Embedding of `Image::get_pixel` for the centered `(isize, isize)`
coordinate, panics modelled as `none`. -/
def Image.getPixelCentered (img : Image) (x y : ℤ) : Option ℤ :=
  (indexCentered x y img.width img.height).bind fun idx => img.pixels.get? idx

/-! ## Overflow-safe accumulator (`src/analysis/average.rs`)

For integer pixel types `BigNum::BigType` is `num::BigInt`, modelled as
`ℤ`.  `BigNum::div` is
`a.checked_div(b).and_then(|r| r.try_into().ok()).unwrap()`:
`checked_div` is `none` exactly when the count is zero, `BigInt` division
truncates toward zero, and `try_into` narrows back into the fixed-width
pixel type, whose value range is the parameter `[lo, hi]`.  The `unwrap`
panic is modelled as `none`. -/

/-- The `Average<P>` accumulator state: a big-integer sum and count. -/
structure Average where
  sum : ℤ
  count : ℤ
deriving DecidableEq

/-- `Average::default()`: zero sum and zero count. -/
def Average.default : Average := ⟨0, 0⟩

/-- `Average::add`: `self.sum += value; self.count += 1`. -/
def Average.add (a : Average) (value : ℤ) : Average :=
  ⟨a.sum + value, a.count + 1⟩

/-- `Average::average` for an integer pixel type with value range
`[lo, hi]`; the `unwrap` panic (zero count, or quotient not representable)
is modelled as `none`. -/
def Average.averageOpt (lo hi : ℤ) (a : Average) : Option ℤ :=
  if a.count = 0 then none
  else
    let q := a.sum.tdiv a.count
    if lo ≤ q ∧ q ≤ hi then some q else none

/-! ## Radial diffraction analysis (`src/analysis/mod.rs`) -/

/-- `AnalysisConfig`: `theta_sample_count` (points along the radius, the
radial bin count), `intensity_sample_count` (the angular bin count), and
`radius` (maximum normalized radius).  `f64` is modelled as `ℝ`. -/
structure AnalysisConfig where
  thetaSampleCount : ℕ
  intensitySampleCount : ℕ
  radius : ℝ

open Classical in
/-- `AnalysisConfig::new`:
`if radius < 0.0 || f64::consts::SQRT_2 < radius { return None; }`. -/
noncomputable def AnalysisConfig.new (thetaSampleCount intensitySampleCount : ℕ)
    (radius : ℝ) : Option AnalysisConfig :=
  if radius < 0 ∨ Real.sqrt 2 < radius then none
  else some ⟨thetaSampleCount, intensitySampleCount, radius⟩

/-- `samples[j].add(value)`: update the `j`-th accumulator of the slice,
leaving the slice unchanged when `j` is out of range (the code never
indexes out of range: `j < samples.len()`). -/
def addAt : List Average → ℕ → ℤ → List Average
  | [], _, _ => []
  | a :: t, 0, v => a.add v :: t
  | a :: t, j + 1, v => a :: addAt t j v

/-- Sequence a list of options: `some` of the list of values when every
entry is `some`, otherwise `none`.  Used to model that a panic while
computing any bin's average aborts the whole analysis. -/
def optionList : List (Option ℤ) → Option (List ℤ)
  | [] => some []
  | o :: t => o.bind fun v => (optionList t).map fun l => v :: l

/-- `compute_average_slice`: map `Average::average` over the bins
(a panic in any bin is modelled as an overall `none`). -/
def computeAverageSlice (lo hi : ℤ) (averages : List Average) : Option (List ℤ) :=
  optionList (averages.map (Average.averageOpt lo hi))

/-- Embedding of `radial_difraction_analysis` from `src/analysis/mod.rs`:
allocate one accumulator per radial bin, loop over `i` (angle index) and
`j` (radius index), sample at `(i * π/A, j * radius/R)` and add any
returned value into the accumulator at index `j`, then average each bin.
The `f64` angle and radius arithmetic is modelled over `ℝ`. -/
noncomputable def radialDifractionAnalysis (image : Image) (config : AnalysisConfig)
    (samplerMethod : Image → ℝ → ℝ → Option ℤ) (lo hi : ℤ) : Option (List ℤ) :=
  let rot : ℝ := Real.pi / (config.intensitySampleCount : ℝ)
  let rad : ℝ := config.radius / (config.thetaSampleCount : ℝ)
  let samples :=
    (List.range config.intensitySampleCount).foldl (fun s (i : ℕ) =>
      (List.range config.thetaSampleCount).foldl (fun s (j : ℕ) =>
        match samplerMethod image ((i : ℝ) * rot) ((j : ℝ) * rad) with
        | some value => addAt s j value
        | none => s) s)
      (List.replicate config.thetaSampleCount Average.default)
  computeAverageSlice lo hi samples

/-- The angular samples that yielded a value at radius index `j`: for each
angle index `i` in `0..A`, the sampler's value at angle `i * π/A` and
normalized radius `j * radius/R`, keeping only the `some` results.
This is the quantity the specification's wording is phrased in. -/
noncomputable def angularSamplesAt (image : Image) (config : AnalysisConfig)
    (samplerMethod : Image → ℝ → ℝ → Option ℤ) (j : ℕ) : List ℤ :=
  (List.range config.intensitySampleCount).filterMap fun (i : ℕ) =>
    samplerMethod image
      ((i : ℝ) * (Real.pi / (config.intensitySampleCount : ℝ)))
      ((j : ℝ) * (config.radius / (config.thetaSampleCount : ℝ)))

/-- The accumulator obtained by `add`-ing every element of a list in
order into a fresh accumulator. -/
def Average.ofList (l : List ℤ) : Average := l.foldl Average.add Average.default

/-- Specification-side definition, following the spec's wording: the
one-dimensional azimuthally-averaged
radial intensity profile — for each radius index `j` in increasing order,
the average of all angular samples that yielded a value at `j`. -/
noncomputable def specRadialProfile (image : Image) (config : AnalysisConfig)
    (samplerMethod : Image → ℝ → ℝ → Option ℤ) (lo hi : ℤ) : Option (List ℤ) :=
  optionList <| (List.range config.thetaSampleCount).map fun j =>
    Average.averageOpt lo hi (Average.ofList (angularSamplesAt image config samplerMethod j))

/-! ## Byte-offset decoder (`src/compression/byte_offset.rs` and
`src/compression/from_bytes.rs`)

The byte stream is a `List Byte`; `read_exact` on a too-short stream is an
I/O error, modelled as `none`.  A sample of the fixed-width target type is
represented by its bit pattern, a natural number `< 2^w`; the signed or
unsigned reading of that pattern only matters inside `FromBytes`. -/

/-- One byte of the input stream. -/
abbrev Byte := Fin 256

/-- Little-endian value of a byte list (`uN::from_le_bytes`). -/
def leNat : List Byte → ℕ
  | [] => 0
  | b :: t => b.val + 256 * leNat t

/-- The integer read from `k` low-order bits holding the pattern `v`:
two's-complement when `signed`, plain value otherwise. -/
def intOfBits (signed : Bool) (k : ℕ) (v : ℕ) : ℤ :=
  if signed ∧ 2 ^ (k - 1) ≤ v then (v : ℤ) - 2 ^ k else (v : ℤ)

/-- Embedding of the `FromBytes` impls from `src/compression/from_bytes.rs`
for the integer types, as bit patterns of width `w`: interpret the bytes
little-endian with the target's signedness, then reduce into width `w`
(for fewer than `w/8` bytes this is the impls' sign/zero-extension, for
more it is their truncation to the low-order bytes). -/
def fromBytes (signed : Bool) (w : ℕ) (bytes : List Byte) : ℕ :=
  (intOfBits signed (8 * bytes.length) (leNat bytes) % (2 ^ w : ℤ)).toNat

/-- `read_n_bytes::<N>`: take `n` bytes off the stream, or fail
(`read_exact` returns an I/O error) when the stream is shorter. -/
def readNBytes (n : ℕ) (s : List Byte) : Option (List Byte × List Byte) :=
  if n ≤ s.length then some (s.take n, s.drop n) else none

/-- Embedding of the free function `read_value` from
`src/compression/byte_offset.rs`: the 1→2→4→8-byte escape chain with
sentinels `0x80`, `0x8000`, `0x80000000`, yielding the delta's bit
pattern in width `w` and the remaining stream. -/
def readDelta (signed : Bool) (w : ℕ) (s : List Byte) : Option (ℕ × List Byte) :=
  (readNBytes 1 s).bind fun (b1, s1) =>
    if leNat b1 ≠ 0x80 then some (fromBytes signed w b1, s1)
    else (readNBytes 2 s1).bind fun (b2, s2) =>
      if leNat b2 ≠ 0x8000 then some (fromBytes signed w b2, s2)
      else (readNBytes 4 s2).bind fun (b4, s4) =>
        if leNat b4 ≠ 0x80000000 then some (fromBytes signed w b4, s4)
        else (readNBytes 8 s4).map fun (b8, s8) => (fromBytes signed w b8, s8)

/-- `ByteOffsetReader::read`: decode `n` samples, threading the running
`base_value` (started at `P::from_1_bytes([0])`, i.e. zero, by
`ByteOffsetReader::new`) through the whole call; each delta is added with
the target's wraparound arithmetic and the new base is emitted. -/
def readLoop (signed : Bool) (w : ℕ) : ℕ → ℕ → List Byte → Option (List ℕ × List Byte)
  | 0, _, s => some ([], s)
  | n + 1, base, s =>
    (readDelta signed w s).bind fun (d, s') =>
      let base' := (base + d) % 2 ^ w
      (readLoop signed w n base' s').map fun (out, rest) => (base' :: out, rest)

/-- Embedding of `read_byte_offset`: decode exactly `n` samples starting
from base zero; on any short read the call fails and no output is
delivered. -/
def readByteOffset (signed : Bool) (w : ℕ) (n : ℕ) (s : List Byte) :
    Option (List ℕ × List Byte) :=
  readLoop signed w n 0 s

/-- Specification-side definition, following the spec's wording: parse
`n` deltas off the stream by the escape chain, independent of any base. -/
def specDeltas (signed : Bool) (w : ℕ) : ℕ → List Byte → Option (List ℕ × List Byte)
  | 0, s => some ([], s)
  | n + 1, s =>
    (readDelta signed w s).bind fun (d, s') =>
      (specDeltas signed w n s').map fun (ds, rest) => (d :: ds, rest)

/-- Specification-side definition, following the spec's wording: the
absolute samples obtained by adding each delta to a running base with
width-`w` wraparound arithmetic and emitting each new base. -/
def applyDeltas (w : ℕ) : ℕ → List ℕ → List ℕ
  | _, [] => []
  | base, d :: ds =>
    let base' := (base + d) % 2 ^ w
    base' :: applyDeltas w base' ds

/-- Specification-side definition, following the spec's wording: decode
exactly `n` absolute samples — parse `n` deltas by the escape chain and
accumulate them onto a running base that starts at zero and persists
across the whole decode call. -/
def specDecode (signed : Bool) (w : ℕ) (n : ℕ) (s : List Byte) :
    Option (List ℕ × List Byte) :=
  (specDeltas signed w n s).map fun (ds, rest) => (applyDeltas w 0 ds, rest)

/-! ## Helper lemmas -/

theorem readLoop_eq_specDeltas (signed : Bool) (w : ℕ) :
    ∀ (n base : ℕ) (s : List Byte),
      readLoop signed w n base s =
        (specDeltas signed w n s).map fun p => (applyDeltas w base p.1, p.2) := by
  intro n
  induction n with
  | zero => intro base s; rfl
  | succ n ih =>
    intro base s
    simp only [readLoop, specDeltas]
    cases h : readDelta signed w s with
    | none => rfl
    | some p =>
      obtain ⟨d, s'⟩ := p
      simp only [Option.some_bind, ih]
      cases h2 : specDeltas signed w n s' with
      | none => rfl
      | some q => rfl

theorem specDeltas_length (signed : Bool) (w : ℕ) :
    ∀ (n : ℕ) (s : List Byte) (ds : List ℕ) (rest : List Byte),
      specDeltas signed w n s = some (ds, rest) → ds.length = n := by
  intro n
  induction n with
  | zero =>
    intro s ds rest h
    simp only [specDeltas, Option.some.injEq, Prod.mk.injEq] at h
    rw [← h.1]
    rfl
  | succ n ih =>
    intro s ds rest h
    simp only [specDeltas] at h
    cases h1 : readDelta signed w s with
    | none => rw [h1] at h; simp at h
    | some p =>
      obtain ⟨d, s'⟩ := p
      rw [h1] at h
      simp only [Option.some_bind] at h
      cases h2 : specDeltas signed w n s' with
      | none => rw [h2] at h; simp at h
      | some q =>
        rw [h2] at h
        simp only [Option.map_some', Option.some.injEq, Prod.mk.injEq] at h
        obtain ⟨hq, -⟩ := h
        have := ih s' q.1 q.2 (by rw [h2])
        rw [← hq]
        simp [this]

theorem applyDeltas_length (w : ℕ) :
    ∀ (base : ℕ) (ds : List ℕ), (applyDeltas w base ds).length = ds.length := by
  intro base ds
  induction ds generalizing base with
  | nil => rfl
  | cons d t ih => simp [applyDeltas, ih]

/-! ## C1: the byte-offset decoder -/

/-- C1: for every target signedness and width, every byte stream and every
requested sample count `n`, `read_byte_offset` decodes exactly `n` absolute
samples, each obtained by parsing a delta through the 1→2→4→8-byte escape
chain (sentinels `0x80`, `0x8000`, `0x80000000`, little-endian,
sign/zero-extended per the target's signedness) and adding it to a running
base that starts at zero and persists across the whole call with
fixed-width wraparound arithmetic, emitting each new base. -/
theorem readByteOffset_eq_specDecode (signed : Bool) (w n : ℕ) (s : List Byte) :
    readByteOffset signed w n s = specDecode signed w n s ∧
    ∀ out rest, readByteOffset signed w n s = some (out, rest) → out.length = n := by
  constructor
  · exact readLoop_eq_specDeltas signed w n 0 s
  · intro out rest h
    rw [readByteOffset, readLoop_eq_specDeltas signed w n 0 s] at h
    cases h2 : specDeltas signed w n s with
    | none => rw [h2] at h; simp at h
    | some q =>
      rw [h2] at h
      simp only [Option.map_some', Option.some.injEq, Prod.mk.injEq] at h
      obtain ⟨hout, -⟩ := h
      rw [← hout, applyDeltas_length]
      exact specDeltas_length signed w n s q.1 q.2 (by rw [h2])

/-- Witness for C1, on the repository's own `combine_with_base_value` test
data: bytes `0x42 0x24` decode (as `i32`) to samples `0x42`, `0x66`. -/
theorem readByteOffset_eq_specDecode_witness :
    readByteOffset true 32 2 [0x42, 0x24] = specDecode true 32 2 [0x42, 0x24] ∧
    ([0x42, 0x66] : List ℕ).length = 2 :=
  ⟨(readByteOffset_eq_specDecode true 32 2 [0x42, 0x24]).1,
   (readByteOffset_eq_specDecode true 32 2 [0x42, 0x24]).2 [0x42, 0x66] []
     (by decide)⟩

theorem foldl_add_eq (l : List ℤ) :
    ∀ a : Average, l.foldl Average.add a = ⟨a.sum + l.sum, a.count + l.length⟩ := by
  induction l with
  | nil => intro a; simp
  | cons v t ih =>
    intro a
    simp only [List.foldl_cons, ih, Average.add, List.sum_cons, List.length_cons,
      Average.mk.injEq]
    constructor <;> push_cast <;> ring

theorem ofList_eq (l : List ℤ) : Average.ofList l = ⟨l.sum, l.length⟩ := by
  simp [Average.ofList, Average.default, foldl_add_eq]

/-! ## C3: exact integer averaging -/

/-- C3: for any nonempty sequence of values `add`ed to a fresh `Average`
accumulator, the sum and count are tracked exactly (in unbounded
integers, so the sum cannot overflow), and `average()` returns the
truncating-toward-zero quotient of the exact sum by the exact count,
narrowed into the pixel range `[lo, hi]`, provided that quotient is
representable in the range. -/
theorem average_exact (lo hi : ℤ) (l : List ℤ) (hne : l ≠ [])
    (hlo : lo ≤ l.sum.tdiv l.length) (hhi : l.sum.tdiv l.length ≤ hi) :
    Average.averageOpt lo hi (Average.ofList l) = some (l.sum.tdiv l.length) := by
  rw [ofList_eq, Average.averageOpt]
  have hlen : (l.length : ℤ) ≠ 0 :=
    Nat.cast_ne_zero.mpr (List.length_pos.mpr hne).ne'
  simp [hlen, hlo, hhi]

/-- Witness for C3, on the repository's own `big_u8` test data: adding
`121, 122, 123, 124, 125` as 8-bit unsigned (range `[0, 255]`; the exact
sum 615 exceeds the type's maximum) yields mean `123`. -/
theorem average_exact_witness :
    ([121, 122, 123, 124, 125] : List ℤ) ≠ [] ∧
    Average.averageOpt 0 255 (Average.ofList [121, 122, 123, 124, 125]) = some 123 :=
  ⟨by decide,
   (average_exact 0 255 [121, 122, 123, 124, 125] (by decide) (by decide)
     (by decide)).trans (by decide)⟩

/-! ## C4: the centered-coordinate lookup (code bug evidence)

The claim states the lookup yields a value exactly when the re-centered
`x` lies in `[0, width)` and the re-centered `y` in `[0, height)`.  The
code's guard is `width < x as usize` (not `<=`), so a re-centered `x`
equal to `width` slips through and addresses the first pixel of the next
row. -/

/-- C4 (failing input): on a `2×2` image with pixels `[10, 20, 30, 40]`,
the centered coordinate `(1, -1)` re-centers to `x = 2, y = 0`; the
re-centered `x` equals the width, so it is outside `[0, 2)` and the claim
demands no value, yet the lookup yields linear index `2` and returns the
pixel `30` (the first pixel of row 1). -/
theorem indexCentered_accepts_x_eq_width :
    indexCentered 1 (-1) 2 2 = some 2 ∧
    Image.getPixelCentered ⟨2, 2, [10, 20, 30, 40]⟩ 1 (-1) = some 30 ∧
    ¬((1 : ℤ) + ((2 : ℕ) / 2 : ℕ) < (2 : ℕ)) := by
  refine ⟨by decide, ?_, by decide⟩
  simp only [Image.getPixelCentered]
  rw [(by decide : indexCentered 1 (-1) 2 2 = some 2)]
  rfl

/-! ## C5: the linear-index interpretation (code bug evidence)

The claim states the interpretation is total and accepts `i` iff
`i < width * height`, including when `width * height = 0`.  The code
computes `width * height - 1` in `usize`; for an empty image this
subtraction underflows (wrapping to `usize::MAX` in release builds, so
every index is accepted and the subsequent pixel indexing is out of
bounds; panicking outright in debug builds). -/

/-- C5 (failing input): for `width = height = 0` and index `0`, the claim
demands that no value is produced (`0 < 0 * 0` is false), but the
wrapped guard accepts the index, and `get_pixel` then indexes an empty
buffer (a panic, modelled as `none`). -/
theorem indexUsize_empty_image :
    indexUsize 0 0 0 = some 0 ∧ ¬(0 < 0 * 0) ∧
    Image.getPixelUsize ⟨0, 0, []⟩ 0 = none := by
  refine ⟨by decide, by decide, ?_⟩
  simp only [Image.getPixelUsize]
  rw [(by decide : indexUsize 0 0 0 = some 0)]
  rfl

/-! ## C6: `AnalysisConfig` construction -/

/-- C6: construction of an `AnalysisConfig` succeeds exactly when the
maximum normalized radius lies in `[0, √2]` (in particular `√2` itself
succeeds), and fails producing no config for every radius below `0` or
above `√2`. -/
theorem analysisConfig_new_isSome (t i : ℕ) (r : ℝ) :
    (AnalysisConfig.new t i r).isSome ↔ 0 ≤ r ∧ r ≤ Real.sqrt 2 := by
  rw [AnalysisConfig.new]
  split_ifs with h
  · simp only [Option.isSome_none, Bool.false_eq_true, false_iff]
    rintro ⟨h0, h2⟩
    rcases h with h | h <;> linarith
  · push_neg at h
    simp only [Option.isSome_some, true_iff]
    exact ⟨not_lt.mp (fun hc => absurd hc h.1.not_lt) , h.2⟩

theorem addAt_getElem? (v : ℤ) :
    ∀ (s : List Average) (j k : ℕ),
      (addAt s j v)[k]? = if k = j then (s[j]?).map (·.add v) else s[k]? := by
  intro s
  induction s with
  | nil => intro j k; cases j <;> simp [addAt]
  | cons a t ih =>
    intro j k
    cases j with
    | zero => cases k <;> simp [addAt]
    | succ j =>
      cases k with
      | zero => simp [addAt]
      | succ k => simp [addAt, ih, Nat.succ_inj]

theorem foldl_stepAt_getElem? (f : ℕ → Option ℤ) :
    ∀ (n : ℕ) (s : List Average) (k : ℕ),
      ((List.range n).foldl (fun s j =>
          match f j with
          | some v => addAt s j v
          | none => s) s)[k]? =
        if k < n then
          match f k with
          | some v => (s[k]?).map (·.add v)
          | none => s[k]?
        else s[k]? := by
  intro n
  induction n with
  | zero => intro s k; simp
  | succ n ih =>
    intro s k
    rw [List.range_succ, List.foldl_append, List.foldl_cons, List.foldl_nil]
    by_cases hk : k = n
    · subst hk
      cases hf : f k with
      | none => simp only [hf]; rw [ih]; simp [hf]
      | some v =>
        simp only [hf]
        rw [addAt_getElem?, if_pos rfl, ih]
        simp [hf]
    · have hiff : k < n + 1 ↔ k < n := by omega
      cases hf : f n with
      | none => simp only [hf]; rw [ih]; simp only [hiff]
      | some v =>
        simp only [hf]
        rw [addAt_getElem?, if_neg hk, ih]
        simp only [hiff]

theorem outerFold_getElem? (g : ℕ → ℕ → Option ℤ) (R : ℕ) :
    ∀ (A k : ℕ),
      ((List.range A).foldl (fun s i =>
          (List.range R).foldl (fun s j =>
            match g i j with
            | some v => addAt s j v
            | none => s) s)
        (List.replicate R Average.default))[k]? =
      if k < R then
        some (Average.ofList ((List.range A).filterMap fun i => g i k))
      else none := by
  intro A
  induction A with
  | zero =>
    intro k
    simp [List.getElem?_replicate, Average.ofList]
  | succ A ih =>
    intro k
    rw [List.range_succ, List.foldl_append, List.foldl_cons, List.foldl_nil,
      foldl_stepAt_getElem? (g A), ih]
    rw [List.filterMap_append]
    by_cases hk : k < R
    · simp only [if_pos hk]
      cases hg : g A k with
      | none => simp [hg]
      | some v =>
        simp only [hg, Option.map_some']
        rw [List.filterMap_cons]
        simp only [hg, List.filterMap_nil]
        simp only [Average.ofList, List.foldl_append, List.foldl_cons, List.foldl_nil]
    · simp [hk]

theorem optionList_length :
    ∀ (l : List (Option ℤ)) (v : List ℤ), optionList l = some v → v.length = l.length := by
  intro l
  induction l with
  | nil =>
    intro v h
    simp only [optionList, Option.some.injEq] at h
    simp [← h]
  | cons o t ih =>
    intro v h
    cases o with
    | none => simp [optionList] at h
    | some x =>
      simp only [optionList, Option.some_bind] at h
      cases h2 : optionList t with
      | none => rw [h2] at h; simp at h
      | some w =>
        rw [h2] at h
        simp only [Option.map_some', Option.some.injEq] at h
        rw [← h]
        simp [ih w h2]

theorem optionList_eq_none_of_mem :
    ∀ (l : List (Option ℤ)), none ∈ l → optionList l = none := by
  intro l
  induction l with
  | nil => intro h; simp at h
  | cons o t ih =>
    intro h
    cases o with
    | none => rfl
    | some x =>
      have ht : (none : Option ℤ) ∈ t := by
        rcases List.mem_cons.mp h with h1 | h1
        · exact Option.noConfusion h1
        · exact h1
      simp [optionList, ih ht]

theorem optionList_ne_none_of_mem :
    ∀ (l : List (Option ℤ)) (v : List ℤ), optionList l = some v → ∀ o ∈ l, o ≠ none := by
  intro l v h o ho hnone
  rw [optionList_eq_none_of_mem l (hnone ▸ ho)] at h
  exact Option.noConfusion h

theorem radial_eq_specProfile (image : Image) (config : AnalysisConfig)
    (samplerMethod : Image → ℝ → ℝ → Option ℤ) (lo hi : ℤ) :
    radialDifractionAnalysis image config samplerMethod lo hi =
      specRadialProfile image config samplerMethod lo hi := by
  rw [radialDifractionAnalysis, specRadialProfile, computeAverageSlice]
  have hsamples :
      ((List.range config.intensitySampleCount).foldl (fun s (i : ℕ) =>
          (List.range config.thetaSampleCount).foldl (fun s (j : ℕ) =>
            match samplerMethod image
                ((i : ℝ) * (Real.pi / (config.intensitySampleCount : ℝ)))
                ((j : ℝ) * (config.radius / (config.thetaSampleCount : ℝ))) with
            | some value => addAt s j value
            | none => s) s)
        (List.replicate config.thetaSampleCount Average.default)) =
      (List.range config.thetaSampleCount).map fun j =>
        Average.ofList (angularSamplesAt image config samplerMethod j) := by
    apply List.ext_getElem?
    intro k
    rw [outerFold_getElem?
      (fun i j => samplerMethod image
        ((i : ℝ) * (Real.pi / (config.intensitySampleCount : ℝ)))
        ((j : ℝ) * (config.radius / (config.thetaSampleCount : ℝ))))
      config.thetaSampleCount]
    rw [List.getElem?_map]
    by_cases hk : k < config.thetaSampleCount
    · rw [if_pos hk, List.getElem?_range hk]
      rfl
    · rw [if_neg hk, List.getElem?_eq_none (by simp only [List.length_range]; omega)]
      rfl
  rw [hsamples, List.map_map]
  rfl

/-! ## C2: structure of the radial diffraction analysis -/

/-- C2: for every image, config and sampler, the analysis invokes the
sampler at every pair of angle `i * π/A` (`i` in `0..A`) and normalized
radius `j * radius/R` (`j` in `0..R`), accumulates each returned value
into the bin indexed solely by the radius index `j`, and (when it
returns) produces a one-dimensional profile of length `R`, ordered by
increasing radius index, whose `j`-th entry is the average over all
angular samples that yielded a value at radius index `j`. -/
theorem radialAnalysis_is_azimuthal_average (image : Image) (config : AnalysisConfig)
    (samplerMethod : Image → ℝ → ℝ → Option ℤ) (lo hi : ℤ) :
    radialDifractionAnalysis image config samplerMethod lo hi =
      specRadialProfile image config samplerMethod lo hi ∧
    ∀ out, radialDifractionAnalysis image config samplerMethod lo hi = some out →
      out.length = config.thetaSampleCount := by
  refine ⟨radial_eq_specProfile image config samplerMethod lo hi, ?_⟩
  intro out h
  rw [radial_eq_specProfile, specRadialProfile] at h
  have := optionList_length _ out h
  simpa using this

/-- Witness for C2: a one-bin, one-angle analysis with a sampler that
always yields `5` produces the profile `[5]`, of length `1`. -/
theorem radialAnalysis_is_azimuthal_average_witness :
    radialDifractionAnalysis ⟨1, 1, [7]⟩ ⟨1, 1, 0⟩ (fun _ _ _ => some 5) 0 255 =
      specRadialProfile ⟨1, 1, [7]⟩ ⟨1, 1, 0⟩ (fun _ _ _ => some 5) 0 255 ∧
    ([5] : List ℤ).length = 1 :=
  ⟨(radialAnalysis_is_azimuthal_average ⟨1, 1, [7]⟩ ⟨1, 1, 0⟩ (fun _ _ _ => some 5) 0 255).1,
   (radialAnalysis_is_azimuthal_average ⟨1, 1, [7]⟩ ⟨1, 1, 0⟩ (fun _ _ _ => some 5) 0 255).2
     [5] (by rfl)⟩

/-! ## C10: `average()` on an empty accumulator panics -/

/-- C10: `average()` on an accumulator that never received a value takes
the zero-divisor branch of the exact division and panics (modelled as
`none`); consequently the integer-pixel analysis only returns a profile
when every radial bin received at least one sample, and in particular it
cannot return when the angular bin count is `0` and the radial bin count
is positive. -/
theorem average_empty_panics :
    (∀ lo hi : ℤ, Average.averageOpt lo hi Average.default = none) ∧
    (∀ (image : Image) (config : AnalysisConfig)
       (samplerMethod : Image → ℝ → ℝ → Option ℤ) (lo hi : ℤ) (out : List ℤ),
       radialDifractionAnalysis image config samplerMethod lo hi = some out →
       ∀ j < config.thetaSampleCount,
         angularSamplesAt image config samplerMethod j ≠ []) ∧
    (∀ (image : Image) (R : ℕ) (radius : ℝ)
       (samplerMethod : Image → ℝ → ℝ → Option ℤ) (lo hi : ℤ), 0 < R →
       radialDifractionAnalysis image ⟨R, 0, radius⟩ samplerMethod lo hi = none) := by
  refine ⟨fun lo hi => rfl, ?_, ?_⟩
  · intro image config samplerMethod lo hi out h j hj
    rw [radial_eq_specProfile, specRadialProfile] at h
    have hmem :
        Average.averageOpt lo hi
            (Average.ofList (angularSamplesAt image config samplerMethod j)) ∈
          (List.range config.thetaSampleCount).map fun j =>
            Average.averageOpt lo hi
              (Average.ofList (angularSamplesAt image config samplerMethod j)) :=
      List.mem_map.mpr ⟨j, List.mem_range.mpr hj, rfl⟩
    have hne := optionList_ne_none_of_mem _ out h _ hmem
    intro hempty
    rw [hempty] at hne
    exact hne rfl
  · intro image R radius samplerMethod lo hi hR
    rw [radial_eq_specProfile, specRadialProfile]
    apply optionList_eq_none_of_mem
    refine List.mem_map.mpr ⟨0, List.mem_range.mpr hR, ?_⟩
    simp [angularSamplesAt, Average.ofList, Average.default, Average.averageOpt]

/-- Witness for C10: an analysis that returned `[5]` had a nonempty bin;
and with angular bin count `0` and radial bin count `1` the analysis
panics (modelled as `none`). -/
theorem average_empty_panics_witness :
    Average.averageOpt 0 255 Average.default = none ∧
    angularSamplesAt ⟨1, 1, [7]⟩ ⟨1, 1, 0⟩ (fun _ _ _ => some 5) 0 ≠ [] ∧
    radialDifractionAnalysis ⟨1, 1, [7]⟩ ⟨1, 0, 0⟩ (fun _ _ _ => some 5) 0 255 = none :=
  ⟨average_empty_panics.1 0 255,
   average_empty_panics.2.1 ⟨1, 1, [7]⟩ ⟨1, 1, 0⟩ (fun _ _ _ => some 5) 0 255 [5]
     (by rfl) 0 (by decide),
   average_empty_panics.2.2 ⟨1, 1, [7]⟩ 1 0 (fun _ _ _ => some 5) 0 255 (by decide)⟩

/-! ## Multi-image reading (`src/lib.rs`)

`read_all_images` loops `try_read_next_image`, which classifies the
outcome of one `read_image` call.  The claim is about this control flow,
so `read_image` (the whole single-image pipeline) is abstracted as a
parameter `readImage` from a stream state to either an error or an image
and the advanced stream state.  The `Metadata` and `IO` error payloads
do not influence the loop and are dropped.  The Rust `while let` loop is
given explicit fuel; `none` means the fuel ran out. -/

/-- The `Error` enum of `src/lib.rs` (payloads dropped). -/
inductive Error
  | metadataErr
  | ioErr
  | noImage
  | unsupportedCompression
  | unsupportedByteOrder
  | unsupportedPixelFormat
  | unsupportedContentType
  | unsupportedEncoding
  | unrecognisedBinaryHeader
  | missingDimension
deriving DecidableEq

/-- `try_read_next_image`: `Ok(image)` becomes `Ok(Some(image))`,
`Err(NoImage)` becomes `Ok(None)`, any other error is propagated. -/
def tryReadNextImage {σ Img : Type} (readImage : σ → Except Error (Img × σ))
    (s : σ) : Except Error (Option (Img × σ)) :=
  match readImage s with
  | .ok p => .ok (some p)
  | .error .noImage => .ok none
  | .error e => .error e

/-- `read_all_images`: push images while `try_read_next_image` yields one,
stop successfully on `Ok(None)`, abort on any error. -/
def readAllImages {σ Img : Type} (readImage : σ → Except Error (Img × σ)) :
    ℕ → σ → Option (Except Error (List Img × σ))
  | 0, _ => none
  | fuel + 1, s =>
    match tryReadNextImage readImage s with
    | .error e => some (.error e)
    | .ok none => some (.ok ([], s))
    | .ok (some (img, s')) =>
      (readAllImages readImage fuel s').map fun r =>
        r.map fun p => (img :: p.1, p.2)

/-! ## C7: `read_all_images` control flow -/

/-- C7: a `NoImage` outcome terminates the multi-image loop successfully
with the images collected so far; a successful `read_image` prepends its
image, in order, to whatever the rest of the stream yields; and any error
other than `NoImage` makes the whole call return that error, so every
already-decoded image is discarded from the return value. -/
theorem readAllImages_control_flow {σ Img : Type}
    (readImage : σ → Except Error (Img × σ)) (fuel : ℕ) (s s' : σ)
    (img : Img) (e : Error) :
    (readImage s = .error .noImage →
      readAllImages readImage (fuel + 1) s = some (.ok ([], s))) ∧
    (readImage s = .error e → e ≠ .noImage →
      readAllImages readImage (fuel + 1) s = some (.error e)) ∧
    (readImage s = .ok (img, s') →
      readAllImages readImage (fuel + 1) s =
        (readAllImages readImage fuel s').map fun r =>
          r.map fun p => (img :: p.1, p.2)) := by
  refine ⟨?_, ?_, ?_⟩
  · intro h
    simp [readAllImages, tryReadNextImage, h]
  · intro h hne
    rw [readAllImages, tryReadNextImage, h]
    cases e with
    | noImage => exact absurd rfl hne
    | _ => rfl
  · intro h
    simp [readAllImages, tryReadNextImage, h]

/-- A toy stream for exercising the multi-image loop: the state is the
list of outcomes the reads will produce, in order. -/
def toyRead : List (Except Error ℕ) → Except Error (ℕ × List (Except Error ℕ))
  | [] => .error .noImage
  | .ok n :: rest => .ok (n, rest)
  | .error e :: _ => .error e

/-- Witness for C7, on a toy stream: end-of-stream collects `[]`, an
`ioErr` outcome aborts with that error, and a successful read prepends
its image to the rest of the run. -/
theorem readAllImages_control_flow_witness :
    readAllImages toyRead 1 [] = some (.ok ([], [])) ∧
    readAllImages toyRead 1 [.error .ioErr] = some (.error .ioErr) ∧
    readAllImages toyRead 2 [.ok 7] =
      (readAllImages toyRead 1 []).map fun r => r.map fun p => (7 :: p.1, p.2) :=
  ⟨(readAllImages_control_flow toyRead 0 [] [] 0 .noImage).1 rfl,
   (readAllImages_control_flow toyRead 0 [.error .ioErr] [] 0 .ioErr).2.1 rfl
     (by decide),
   (readAllImages_control_flow toyRead 1 [.ok 7] [] 7 .noImage).2.2 rfl⟩

/-! ## Content-Type parameter parsing (`src/metadata/mod.rs`)

Header strings are modelled as `List Char`.  `str::to_lowercase` is
modelled on its ASCII fragment (the fixed tokens below are all ASCII);
`char::is_whitespace` is modelled by `Char.isWhitespace`. -/

/-- ASCII lowercasing of one character (the ASCII fragment of Rust's
`char::to_lowercase`). -/
def asciiToLower (c : Char) : Char :=
  match c with
  | 'A' => 'a' | 'B' => 'b' | 'C' => 'c' | 'D' => 'd' | 'E' => 'e' | 'F' => 'f'
  | 'G' => 'g' | 'H' => 'h' | 'I' => 'i' | 'J' => 'j' | 'K' => 'k' | 'L' => 'l'
  | 'M' => 'm' | 'N' => 'n' | 'O' => 'o' | 'P' => 'p' | 'Q' => 'q' | 'R' => 'r'
  | 'S' => 's' | 'T' => 't' | 'U' => 'u' | 'V' => 'v' | 'W' => 'w' | 'X' => 'x'
  | 'Y' => 'y' | 'Z' => 'z' | c => c

/-- `str::to_lowercase` on a character list. -/
def rustToLower (l : List Char) : List Char := l.map asciiToLower

/-- Rust `str::split(';')`: the groups between semicolons (an empty
string yields one empty group). -/
def splitOnSemi : List Char → List (List Char)
  | [] => [[]]
  | c :: rest =>
    if c = ';' then [] :: splitOnSemi rest
    else
      match splitOnSemi rest with
      | [] => [[c]]
      | g :: gs => (c :: g) :: gs

/-- Drop matching characters from the front (`str::trim_start_matches`). -/
def trimLeftP (p : Char → Bool) (l : List Char) : List Char := l.dropWhile p

/-- Drop matching characters from the back (`str::trim_end_matches`). -/
def trimRightP (p : Char → Bool) (l : List Char) : List Char :=
  (l.reverse.dropWhile p).reverse

/-- `str::trim_matches`: drop matching characters from both ends. -/
def trimMatchesP (p : Char → Bool) (l : List Char) : List Char :=
  trimLeftP p (trimRightP p l)

/-- `str::trim` (whitespace from both ends). -/
def rustTrim (l : List Char) : List Char := trimMatchesP Char.isWhitespace l

/-- The `is_whitespace_or_quote` predicate from `src/metadata/mod.rs`. -/
def isWhitespaceOrQuote (c : Char) : Bool := c.isWhitespace || c = '"'

/-- `str::strip_prefix`: the remainder after the given leading characters,
or `none` when they do not lead the string. -/
def stripLeading : List Char → List Char → Option (List Char)
  | [], l => some l
  | _ :: _, [] => none
  | p :: ps, c :: cs => if p = c then stripLeading ps cs else none

/-- The `PackedKind` enum of `src/metadata/mod.rs`. -/
inductive PackedKind
  | uncorrelatedSections
  | flat
deriving DecidableEq

/-- The `Conversion` enum of `src/metadata/mod.rs`. -/
inductive Conversion
  | packed (kind : Option PackedKind)
  | canonical
  | byteOffset
  | backgroundOffsetDelta
deriving DecidableEq

/-- The error kind produced by `parse_params_to_conversion` (the only
variant of `ErrorKind` that function constructs). -/
inductive MetadataErrorKind
  | invalidConversion
deriving DecidableEq

/-- The `match` on the trimmed `conversions=` value inside
`parse_params_to_conversion`: the fixed vocabulary of accepted tokens. -/
def conversionOfToken (v : List Char) : Option Conversion :=
  if v = "x-cbf_packed".data then some (.packed none)
  else if v = "x-cbf_canonical".data then some .canonical
  else if v = "x-cbf_byte_offset".data then some .byteOffset
  else if v = "x-cbf_background_offset_delta".data then some .backgroundOffsetDelta
  else none

/-- The literal `conversions=` parameter key. -/
def conversionsKey : List Char := "conversions=".data

/-- The parameter loop of `parse_params_to_conversion`: trim each token;
a `conversions=` token selects a conversion through the vocabulary (any
other value returns `InvalidConversion` immediately); tokens starting
with `uncorrelated_sections` or `flat` record a `PackedKind`. -/
def parseParamsGo : List (List Char) → Option Conversion → Option PackedKind →
    Except MetadataErrorKind (Option Conversion × Option PackedKind)
  | [], conv, pk => .ok (conv, pk)
  | param :: rest, conv, pk =>
    let param := rustTrim param
    match stripLeading conversionsKey param with
    | some value =>
      match conversionOfToken (trimMatchesP isWhitespaceOrQuote value) with
      | some c => parseParamsGo rest (some c) pk
      | none => .error .invalidConversion
    | none =>
      if "uncorrelated_sections".data.isPrefixOf param then
        parseParamsGo rest conv (some .uncorrelatedSections)
      else if "flat".data.isPrefixOf param then
        parseParamsGo rest conv (some .flat)
      else parseParamsGo rest conv pk

/-- Embedding of `parse_params_to_conversion` from `src/metadata/mod.rs`:
lower-case the parameter part, split on `;`, scan the tokens, and attach
the recorded `PackedKind` when the selected conversion was `Packed`. -/
def parseParamsToConversion (params : List Char) :
    Except MetadataErrorKind (Option Conversion) :=
  match parseParamsGo (splitOnSemi (rustToLower params)) none none with
  | .error e => .error e
  | .ok (conv, pk) =>
    .ok (match conv with
         | some (.packed _) => some (.packed pk)
         | c => c)

theorem asciiToLower_eq_semicolon {c : Char} (h : asciiToLower c = ';') : c = ';' := by
  unfold asciiToLower at h
  split at h <;> simp_all

theorem splitOnSemi_no_semi : ∀ l : List Char, ';' ∉ l → splitOnSemi l = [l] := by
  intro l
  induction l with
  | nil => intro _; rfl
  | cons c t ih =>
    intro h
    have hc : ¬(c = ';') := fun hc => h (hc ▸ List.mem_cons_self c t)
    have ht := ih fun hm => h (List.mem_cons_of_mem c hm)
    rw [splitOnSemi, if_neg hc, ht]

theorem dropWhile_dropWhile_of_imp (p q : Char → Bool)
    (h : ∀ c, p c = true → q c = true) :
    ∀ l : List Char, (l.dropWhile p).dropWhile q = l.dropWhile q := by
  intro l
  induction l with
  | nil => rfl
  | cons c t ih =>
    by_cases hc : p c = true
    · rw [List.dropWhile_cons_of_pos hc, ih, List.dropWhile_cons_of_pos (h c hc)]
    · rw [List.dropWhile_cons_of_neg hc]

theorem trimRightP_append_left (p : Char → Bool) (a b : List Char)
    (ha : trimRightP p a = a) :
    trimRightP p (a ++ b) = a ++ trimRightP p b := by
  have ha' : a.reverse.dropWhile p = a.reverse := by
    have := congrArg List.reverse ha
    rwa [trimRightP, List.reverse_reverse] at this
  rw [trimRightP, List.reverse_append, List.dropWhile_append]
  by_cases hb : b.reverse.dropWhile p = []
  · rw [hb]
    simp only [List.isEmpty_nil, if_true, ha', List.reverse_reverse]
    rw [trimRightP, hb]
    simp
  · rw [if_neg (by simpa [List.isEmpty_iff] using hb)]
    rw [List.reverse_append, List.reverse_reverse, trimRightP]

theorem trimRightP_trimRightP_of_imp (p q : Char → Bool)
    (h : ∀ c, p c = true → q c = true) (l : List Char) :
    trimRightP q (trimRightP p l) = trimRightP q l := by
  rw [trimRightP, trimRightP, trimRightP, List.reverse_reverse,
    dropWhile_dropWhile_of_imp p q h]

theorem trimMatchesP_wsq_trimRightP_ws (l : List Char) :
    trimMatchesP isWhitespaceOrQuote (trimRightP Char.isWhitespace l) =
      trimMatchesP isWhitespaceOrQuote l := by
  rw [trimMatchesP, trimMatchesP,
    trimRightP_trimRightP_of_imp Char.isWhitespace isWhitespaceOrQuote
      (fun c hc => by simp [isWhitespaceOrQuote, hc]) l]

theorem stripLeading_append : ∀ a x : List Char, stripLeading a (a ++ x) = some x := by
  intro a x
  induction a with
  | nil => rfl
  | cons c t ih => simp [stripLeading, ih]

theorem rustTrim_conversions_append (w : List Char) :
    rustTrim (conversionsKey ++ w) =
      conversionsKey ++ trimRightP Char.isWhitespace w := by
  rw [rustTrim, trimMatchesP,
    trimRightP_append_left Char.isWhitespace conversionsKey w (by decide)]
  rw [show (conversionsKey ++ trimRightP Char.isWhitespace w) =
    'c' :: ("onversions=".data ++ trimRightP Char.isWhitespace w) from rfl]
  rw [trimLeftP, List.dropWhile_cons_of_neg (by decide)]

theorem parseParamsGo_conversions (w : List Char) :
    parseParamsGo [conversionsKey ++ w] none none =
      match conversionOfToken (trimMatchesP isWhitespaceOrQuote w) with
      | some c => .ok (some c, none)
      | none => .error .invalidConversion := by
  simp only [parseParamsGo, rustTrim_conversions_append,
    stripLeading_append conversionsKey, trimMatchesP_wsq_trimRightP_ws]

/-- The set of canonical (lower-cased, trimmed) `conversions=` values the
code accepts. -/
def conversionVocabulary : Finset (List Char) :=
  {"x-cbf_packed".data, "x-cbf_canonical".data, "x-cbf_byte_offset".data,
   "x-cbf_background_offset_delta".data}

theorem conversionOfToken_isSome (v : List Char) :
    (conversionOfToken v).isSome = true ↔ v ∈ conversionVocabulary := by
  rw [conversionOfToken, conversionVocabulary]
  split_ifs <;> simp_all [Finset.mem_insert, Finset.mem_singleton]

/-! ## C8: the `conversions=` vocabulary -/

/-- C8 (counterexample): there is no six-token vocabulary characterizing
the accepted `conversions=` values — the set of canonical values the
token match accepts has exactly four elements, not six. -/
theorem conversions_vocabulary_not_six :
    ¬ ∃ V : Finset (List Char), V.card = 6 ∧
      ∀ v : List Char, (conversionOfToken v).isSome = true ↔ v ∈ V := by
  rintro ⟨V, hcard, hiff⟩
  have hV : V = conversionVocabulary := by
    apply Finset.ext
    intro v
    rw [← hiff v, conversionOfToken_isSome]
  rw [hV] at hcard
  have h4 : conversionVocabulary.card = 4 := by decide
  rw [h4] at hcard
  exact absurd hcard (by decide)

/-- C8 (amended): a `conversions=` token selects a `Conversion` variant
if and only if its value — lower-cased and with surrounding whitespace
and quotes trimmed — belongs to the fixed vocabulary of four quoted
tokens; every other value of the token makes
`parse_params_to_conversion` return `InvalidConversion`. -/
theorem parseParams_four_token_vocabulary (v : List Char) (hv : ';' ∉ v) :
    parseParamsToConversion (conversionsKey ++ v) =
      match conversionOfToken (trimMatchesP isWhitespaceOrQuote (rustToLower v)) with
      | some c => .ok (some c)
      | none => .error .invalidConversion := by
  have hsemi : ';' ∉ rustToLower v := by
    intro hmem
    rcases List.mem_map.mp hmem with ⟨c, hc, hcl⟩
    exact hv (asciiToLower_eq_semicolon hcl ▸ hc)
  have hlow : rustToLower (conversionsKey ++ v) =
      conversionsKey ++ rustToLower v := by
    rw [rustToLower, List.map_append,
      show List.map asciiToLower conversionsKey = conversionsKey from by decide]
    rfl
  have hnosemi : ';' ∉ conversionsKey ++ rustToLower v := by
    intro hmem
    rcases List.mem_append.mp hmem with h | h
    · exact absurd h (by decide)
    · exact hsemi h
  rw [parseParamsToConversion, hlow, splitOnSemi_no_semi _ hnosemi,
    parseParamsGo_conversions]
  cases hc : conversionOfToken (trimMatchesP isWhitespaceOrQuote (rustToLower v)) with
  | none => rfl
  | some c =>
    rw [conversionOfToken] at hc
    split_ifs at hc with h1 h2 h3 h4
    · cases Option.some.inj hc; rfl
    · cases Option.some.inj hc; rfl
    · cases Option.some.inj hc; rfl
    · cases Option.some.inj hc; rfl

/-- Witness for C8: the realistic quoted value `"x-CBF_BYTE_OFFSET"`
(upper case, quoted) selects the `ByteOffset` conversion. -/
theorem parseParams_four_token_vocabulary_witness :
    parseParamsToConversion (conversionsKey ++ "\"x-CBF_BYTE_OFFSET\"".data) =
      .ok (some .byteOffset) :=
  (parseParams_four_token_vocabulary "\"x-CBF_BYTE_OFFSET\"".data
    (by decide)).trans (by rfl)

/-! ## Header field parsing (`src/metadata/headers.rs`)

The nom streaming parsers are embedded over `List Char`.  A parser
produces `done rest value`, `incomplete` (nom `Err::Incomplete` — more
input is needed) or `failed` (nom `Err::Error` — a recoverable syntax
error; the code uses no `Failure`-producing combinator). -/

/-- Result of one nom streaming parser. -/
inductive PResult (α : Type) where
  | done (rest : List Char) (val : α)
  | incomplete
  | failed
deriving DecidableEq

/-- Sequencing of parser results (monadic bind on `done`). -/
def PResult.bindP : PResult α → (List Char → α → PResult β) → PResult β
  | .done rest v, f => f rest v
  | .incomplete, _ => .incomplete
  | .failed, _ => .failed

/-- nom `character::streaming::char`: one expected character. -/
def pChar (c : Char) : List Char → PResult Char
  | [] => .incomplete
  | x :: rest => if x = c then .done rest c else .failed

/-- nom `character::streaming::crlf`: the literal `\r\n`; a strict prefix
of it at end of input is `incomplete`. -/
def pCrlf : List Char → PResult Unit
  | [] => .incomplete
  | ['\r'] => .incomplete
  | c1 :: c2 :: rest => if c1 = '\r' ∧ c2 = '\n' then .done rest () else .failed
  | _ => .failed

/-- nom `character::streaming::space0`: zero or more spaces/tabs; hitting
the end of input while matching is `incomplete`. -/
def pSpace0 : List Char → PResult Unit
  | [] => .incomplete
  | c :: rest =>
    if c = ' ' ∨ c = '\t' then
      match pSpace0 rest with
      | .done r v => .done r v
      | x => x
    else .done (c :: rest) ()

/-- nom `bytes::streaming::take_while p` on a nonempty-or-any stream:
take the maximal matching prefix; reaching the end of input while
matching (or on empty input) is `incomplete`.  This is also the exact
behaviour of `escaped(take_while(p), '\\', anychar)`: since `take_while`
matches the empty string instead of erroring, nom's `escaped` returns as
soon as `take_while` consumes nothing, so its control-character branch is
unreachable. -/
def pTakeWhileCont (p : Char → Bool) : List Char → PResult (List Char)
  | [] => .incomplete
  | c :: rest =>
    if p c then
      match pTakeWhileCont p rest with
      | .done r v => .done r (c :: v)
      | x => x
    else .done (c :: rest) []

/-- nom `bytes::streaming::take_while1 p`: like `take_while` but an empty
match is an error. -/
def pTakeWhile1 (p : Char → Bool) (l : List Char) : PResult (List Char) :=
  match pTakeWhileCont p l with
  | .done _ [] => .failed
  | x => x

/-- The character class of `field_name`:
`' ' <= c && c != ' ' && c != ':' && c <= '~'`. -/
def fieldNameChar (c : Char) : Bool :=
  decide (' ' ≤ c) && !(c == ' ') && !(c == ':') && decide (c ≤ '~')

/-- `field_name`: one or more printable, non-colon, non-space characters. -/
def fieldName (l : List Char) : PResult (List Char) := pTakeWhile1 fieldNameChar l

/-- `text`: nom `take_until("\r\n")` (streaming) — everything before the
first CRLF, not consuming it; `incomplete` when no CRLF is present yet. -/
def pText : List Char → PResult (List Char)
  | c1 :: c2 :: rest =>
    if c1 = '\r' ∧ c2 = '\n' then .done (c1 :: c2 :: rest) []
    else
      match pText (c2 :: rest) with
      | .done r v => .done r (c1 :: v)
      | x => x
  | _ => .incomplete

/-- The normal-character class inside `quoted_string`:
`c != '"' && c != '\\' && c != '\r'`. -/
def quotedInner (c : Char) : Bool :=
  !(c == '"') && !(c == '\\') && !(c == '\r')

/-- `quoted_string`: `delimited(char('"'), escaped(take_while(...), '\\',
anychar), char('"'))`; see `pTakeWhileCont` for why `escaped` here is
plain `take_while`.  Escapes are not unescaped (content taken verbatim). -/
def quotedString (l : List Char) : PResult (List Char) :=
  (pChar '"' l).bindP fun r1 _ =>
    (pTakeWhileCont quotedInner r1).bindP fun r2 v =>
      (pChar '"' r2).bindP fun r3 _ => .done r3 v

/-- `field_body_contents`: `alt((quoted_string, text))` — nom `alt` tries
`text` only when `quoted_string` fails recoverably; `incomplete`
propagates. -/
def fieldBodyContents (l : List Char) : PResult (List Char) :=
  match quotedString l with
  | .failed => pText l
  | x => x

/-- The continuation of `lwsp_chars` after its first matched character:
consume further spaces/tabs; end of input while looking is `incomplete`
(nom streaming `fold_many1` propagates `Incomplete` from any round). -/
def lwspAfter : List Char → PResult Unit
  | [] => .incomplete
  | c :: rest => if c = ' ' ∨ c = '\t' then lwspAfter rest else .done (c :: rest) ()

/-- `lwsp_chars`: `fold_many1(alt((char(' '), char('\t'))), ...)` — one or
more spaces/tabs. -/
def lwspChars : List Char → PResult Unit
  | [] => .incomplete
  | c :: rest => if c = ' ' ∨ c = '\t' then lwspAfter rest else .failed

/-- `field_body`: contents, then optionally (CRLF + linear whitespace +
a recursive `field_body`), whose value is concatenated directly onto the
contents (`body.to_mut().push_str(&cont)`).  nom `opt` turns a recoverable
failure of the folded continuation into "no continuation" without
consuming; `incomplete` propagates so the caller can read another line.
The recursion is given fuel; exhausted fuel reads as `incomplete`. -/
def fieldBody : ℕ → List Char → PResult (List Char)
  | 0, _ => .incomplete
  | fuel + 1, l =>
    (fieldBodyContents l).bindP fun r1 body =>
      match (pCrlf r1).bindP fun r2 _ =>
          (lwspChars r2).bindP fun r3 _ => fieldBody fuel r3 with
      | .done r4 cont => .done r4 (body ++ cont)
      | .incomplete => .incomplete
      | .failed => .done r1 body

/-- `field`: `terminated(separated_pair(field_name, delimited(space0,
char(':'), space0), field_body), crlf)`. -/
def pField (fuel : ℕ) (l : List Char) : PResult (List Char × List Char) :=
  (fieldName l).bindP fun r1 name =>
    (pSpace0 r1).bindP fun r2 _ =>
      (pChar ':' r2).bindP fun r3 _ =>
        (pSpace0 r3).bindP fun r4 _ =>
          (fieldBody fuel r4).bindP fun r5 body =>
            (pCrlf r5).bindP fun r6 _ => .done r6 (name, body)

/-- `BufRead::read_line`: the next line of the stream, up to and
including `\n` (or everything, at end of stream), plus the rest. -/
def readLine : List Char → List Char × List Char
  | [] => ([], [])
  | c :: rest =>
    if c = '\n' then ([c], rest)
    else
      let (line, r) := readLine rest
      (c :: line, r)

/-- `read_header`: parse a field from the buffered `line`; on
`incomplete`, append one more line from the stream (end of stream is an
I/O error) and retry; a parse failure is a header syntax error.  Errors
and fuel exhaustion are all modelled as `none`. -/
def readHeader : ℕ → List Char → List Char →
    Option ((List Char × List Char) × List Char × List Char)
  | 0, _, _ => none
  | fuel + 1, stream, line =>
    match pField (line.length + 1) line with
    | .done rest kv => some (kv, rest, stream)
    | .incomplete =>
      let (nl, stream') := readLine stream
      if nl = [] then none
      else readHeader fuel stream' (line ++ nl)
    | .failed => none

/-- `HashMap::insert` with string keys, as an association list:
last write wins, first insertion fixes the entry's position. -/
def insertKV : List (List Char × List Char) → List Char → List Char →
    List (List Char × List Char)
  | [], k, v => [(k, v)]
  | (k', v') :: t, k, v =>
    if k' = k then (k, v) :: t else (k', v') :: insertKV t k v

/-- The `while` loop of `read_headers`: stop successfully when the
buffered line is empty or the blank `\r\n` line, otherwise read one
header field and insert it. -/
def readHeadersGo : ℕ → List Char → List Char → List (List Char × List Char) →
    Option (List (List Char × List Char))
  | 0, _, _, _ => none
  | fuel + 1, stream, line, acc =>
    if line = [] ∨ line = ['\r', '\n'] then some acc
    else
      match readHeader (stream.length + 1) stream line with
      | none => none
      | some ((k, v), line', stream') =>
        readHeadersGo fuel stream' line' (insertKV acc k v)

/-- Embedding of `read_headers` from `src/metadata/headers.rs`: read the
first line, then loop until the blank line, producing the field mapping.
All failures (syntax error, unexpected end of stream, fuel) are `none`. -/
def readHeaders (stream : List Char) : Option (List (List Char × List Char)) :=
  let (line, stream') := readLine stream
  readHeadersGo (stream'.length + 2) stream' line []

theorem pText_ne_failed : ∀ l : List Char, pText l ≠ .failed := by
  intro l
  induction l with
  | nil => simp [pText]
  | cons c1 t ih =>
    cases t with
    | nil => simp [pText]
    | cons c2 rest =>
      rw [pText]
      split_ifs with h
      · simp
      · cases hx : pText (c2 :: rest) with
        | done r v => simp
        | incomplete => simp
        | failed => exact absurd hx ih

theorem fieldBodyContents_ne_failed (l : List Char) : fieldBodyContents l ≠ .failed := by
  rw [fieldBodyContents]
  cases hq : quotedString l with
  | done r v => simp
  | incomplete => simp
  | failed => exact pText_ne_failed l

theorem fieldBody_ne_failed (fuel : ℕ) (l : List Char) : fieldBody fuel l ≠ .failed := by
  cases fuel with
  | zero => simp [fieldBody]
  | succ fuel =>
    rw [fieldBody]
    cases hfc : fieldBodyContents l with
    | done r1 body =>
      rw [PResult.bindP]
      cases hin : (pCrlf r1).bindP fun r2 _ =>
          (lwspChars r2).bindP fun r3 _ => fieldBody fuel r3 <;> simp
    | incomplete => simp [PResult.bindP]
    | failed => exact absurd hfc (fieldBodyContents_ne_failed l)

theorem lwspAfter_ne_failed : ∀ l : List Char, lwspAfter l ≠ .failed := by
  intro l
  induction l with
  | nil => simp [lwspAfter]
  | cons c rest ih =>
    rw [lwspAfter]
    split_ifs with h
    · exact ih
    · simp

theorem pText_append (t : List Char) :
    ∀ s₁ : List Char, '\r' ∉ s₁ →
      pText (s₁ ++ '\r' :: '\n' :: t) = .done ('\r' :: '\n' :: t) s₁ := by
  intro s₁
  induction s₁ with
  | nil => intro _; simp [pText]
  | cons c s ih =>
    intro h
    have hc : ¬(c = '\r') := fun hc => h (hc ▸ List.mem_cons_self c s)
    have hs := ih fun hm => h (List.mem_cons_of_mem c hm)
    cases s with
    | nil =>
      rw [show (([c] : List Char) ++ '\r' :: '\n' :: t) = c :: '\r' :: '\n' :: t
        from rfl]
      rw [pText, if_neg (by tauto)]
      rw [show (([] : List Char) ++ '\r' :: '\n' :: t) = '\r' :: '\n' :: t
        from rfl] at hs
      rw [hs]
    | cons d s' =>
      rw [show ((c :: d :: s') ++ '\r' :: '\n' :: t) =
        c :: (d :: s' ++ '\r' :: '\n' :: t) from rfl]
      rw [show (d :: s' ++ '\r' :: '\n' :: t) = d :: (s' ++ '\r' :: '\n' :: t)
        from rfl]
      rw [pText, if_neg (by tauto)]
      rw [show (d :: (s' ++ '\r' :: '\n' :: t)) = (d :: s') ++ '\r' :: '\n' :: t
        from rfl, hs]

theorem fieldBodyContents_append (t : List Char) (s₁ : List Char)
    (hq : s₁.head? ≠ some '"') (hr : '\r' ∉ s₁) :
    fieldBodyContents (s₁ ++ '\r' :: '\n' :: t) = .done ('\r' :: '\n' :: t) s₁ := by
  rw [fieldBodyContents]
  have hqs : quotedString (s₁ ++ '\r' :: '\n' :: t) = .failed := by
    cases s₁ with
    | nil => rw [quotedString]; rfl
    | cons c s =>
      have hc : ¬(c = '"') := fun h => hq (by rw [h]; rfl)
      rw [quotedString, show ((c :: s) ++ '\r' :: '\n' :: t) =
        c :: (s ++ '\r' :: '\n' :: t) from rfl, pChar, if_neg hc]
      rfl
  rw [hqs, pText_append t s₁ hr]

/-- The realistic 11-field header block from the repository's
`test_real_headers`, with its folded multi-line `Content-Type` field. -/
def headerBlock : List Char :=
  ("Content-Transfer-Encoding: BINARY\r\nX-Binary-ID: 1\r\nX-Binary-Element-Type: \"signed 32-bit integer\"\r\nX-Binary-Element-Byte-Order: LITTLE_ENDIAN\r\nX-Binary-Number-of-Elements: 8294400\r\nX-Binary-Size-Fastest-Dimension: 2880\r\nX-Binary-Size-Second-Dimension: 2880\r\nX-Binary-Size-Padding: 1\r\nContent-Type: application/octet-stream;\r\n     conversions=\"x-CBF_BYTE_OFFSET\"\r\nX-Binary-Size:   10161580\r\nContent-MD5:     kL8G8UnwN1oKBdHWVkb0CQ==\r\n\r\n").data

/-- The field mapping `headerBlock` parses to. -/
def expectedHeaderFields : List (List Char × List Char) :=
  [("Content-Transfer-Encoding".data, "BINARY".data),
   ("X-Binary-ID".data, "1".data),
   ("X-Binary-Element-Type".data, "signed 32-bit integer".data),
   ("X-Binary-Element-Byte-Order".data, "LITTLE_ENDIAN".data),
   ("X-Binary-Number-of-Elements".data, "8294400".data),
   ("X-Binary-Size-Fastest-Dimension".data, "2880".data),
   ("X-Binary-Size-Second-Dimension".data, "2880".data),
   ("X-Binary-Size-Padding".data, "1".data),
   ("Content-Type".data,
    "application/octet-stream;conversions=\"x-CBF_BYTE_OFFSET\"".data),
   ("X-Binary-Size".data, "10161580".data),
   ("Content-MD5".data, "kL8G8UnwN1oKBdHWVkb0CQ==".data)]

/-! ## C9: field-body folding -/

set_option maxRecDepth 16000 in
/-- C9: a field body continues onto the following physical line exactly
when that line begins with linear whitespace: for a body `s₁` (not
quote-opened, CRLF-free) followed by `\r\n` and a character `c`, if `c`
is not a space or tab the body ends as `s₁` with nothing consumed beyond
it, and if `c` is a space or tab the continuation (after stripping the
CRLF and all leading linear whitespace) is parsed as a field body and
concatenated directly onto `s₁` with no inserted separator; moreover the
realistic 11-field block parses to exactly 11 fields with its folded
multi-line `Content-Type` value intact as a single concatenated string. -/
theorem fieldBody_folding (fuel : ℕ) (s₁ rest : List Char) (c : Char)
    (hq : s₁.head? ≠ some '"') (hr : '\r' ∉ s₁) :
    (¬(c = ' ' ∨ c = '\t') →
      fieldBody (fuel + 1) (s₁ ++ '\r' :: '\n' :: c :: rest) =
        .done ('\r' :: '\n' :: c :: rest) s₁) ∧
    ((c = ' ' ∨ c = '\t') →
      fieldBody (fuel + 1) (s₁ ++ '\r' :: '\n' :: c :: rest) =
        match lwspAfter rest with
        | .done r _ =>
          match fieldBody fuel r with
          | .done r' v => .done r' (s₁ ++ v)
          | x => x
        | .incomplete => .incomplete
        | .failed => .failed) ∧
    readHeaders headerBlock = some expectedHeaderFields ∧
    expectedHeaderFields.length = 11 ∧
    expectedHeaderFields.lookup "Content-Type".data =
      some "application/octet-stream;conversions=\"x-CBF_BYTE_OFFSET\"".data := by
  refine ⟨?_, ?_, by decide, by decide, by decide⟩
  · intro hc
    rw [fieldBody, fieldBodyContents_append (c :: rest) s₁ hq hr, PResult.bindP]
    rw [show pCrlf ('\r' :: '\n' :: c :: rest) = .done (c :: rest) () from by
      rw [pCrlf]; simp]
    rw [PResult.bindP, lwspChars, if_neg hc]
    rfl
  · intro hc
    rw [fieldBody, fieldBodyContents_append (c :: rest) s₁ hq hr, PResult.bindP]
    rw [show pCrlf ('\r' :: '\n' :: c :: rest) = .done (c :: rest) () from by
      rw [pCrlf]; simp]
    rw [PResult.bindP, lwspChars, if_pos hc]
    cases hl : lwspAfter rest with
    | done r u =>
      rw [PResult.bindP]
      show _ = match fieldBody fuel r with
        | .done r' v => .done r' (s₁ ++ v)
        | x => x
      cases hf : fieldBody fuel r with
      | done r' v => rfl
      | incomplete => rfl
      | failed => exact absurd hf (fieldBody_ne_failed fuel r)
    | incomplete => rfl
    | failed => exact absurd hl (lwspAfter_ne_failed rest)

set_option maxRecDepth 16000 in
/-- Witness for C9, on the repository's own `test_field_body` data: a
continuation line starting with a non-whitespace character ends the body,
and a continuation line starting with spaces is folded in with no
separator (`"text;"` + `"text"` = `"text;text"`). -/
theorem fieldBody_folding_witness :
    fieldBody 6 "text;\r\nNext-Field".data =
      .done "\r\nNext-Field".data "text;".data ∧
    fieldBody 6 "text;\r\n    text\r\nNext-Field".data =
      .done "\r\nNext-Field".data "text;text".data :=
  ⟨(fieldBody_folding 5 "text;".data "ext-Field".data 'N' (by decide)
      (by decide)).1 (by decide),
   ((fieldBody_folding 5 "text;".data "   text\r\nNext-Field".data ' '
      (by decide) (by decide)).2.1 (Or.inl rfl)).trans (by decide)⟩

end Cbf
